import Mathlib

/-!
Verification of the gitui status-tree selection/visibility engine
(`src/components/statustree.rs`).

Paths are modelled as `List Char` (Rust `String` comparison is byte-wise
lexicographic, which coincides with codepoint-wise lexicographic order under
UTF-8). The entry sequence is a `List FileTreeItem`; the `StatusTree` state is
that list plus an optional selection index. Every operation of the Rust file is
translated below; the external Tree Builder (`filetree.rs`, not among the
analyzed sources) is treated per the specification: its output sequence is an
explicit argument to the rebuild operation, and its ancestor lookup
`find_parent_index` is modelled from the spec's description.
-/

/-- Byte/codepoint lexicographic strict order on paths, as Rust's `String`
`Ord` instance computes it. -/
def pathLtB : List Char → List Char → Bool
  | [], [] => false
  | [], _ :: _ => true
  | _ :: _, [] => false
  | a :: as, b :: bs =>
    if a < b then true else if b < a then false else pathLtB as bs

/-- Rust's `str::starts_with`: `pre` is a prefix of `s`. -/
def startsWithB (s pre : List Char) : Bool := pre.isPrefixOf s

/-- Entry kind: a file, or a directory carrying its collapsed flag —
`FileTreeItemKind` with `PathCollapsed` in the source. -/
inductive FileTreeItemKind where
  | File : FileTreeItemKind
  | Path : Bool → FileTreeItemKind
deriving DecidableEq

/-- The per-entry info record: identifying path plus the derived visible flag. -/
structure TreeItemInfo where
  full_path : List Char
  visible : Bool
deriving DecidableEq

/-- One row of the flattened tree. -/
structure FileTreeItem where
  info : TreeItemInfo
  kind : FileTreeItemKind
deriving DecidableEq

/-- The status-tree state: entry sequence plus optional selection index. -/
structure StatusTree where
  tree : List FileTreeItem
  selection : Option Nat
deriving DecidableEq

/-- The four cursor directions. -/
inductive MoveSelection where
  | Up | Down | Left | Right
deriving DecidableEq

/-- Result record of the selection helpers (`SelectionChange` in the source). -/
structure SelectionChange where
  new_index : Nat
  changes : Bool
deriving DecidableEq

/-- Out-of-range reads (which panic in Rust and are caller contract violations
per the spec) yield this inert item in the embedding. -/
def defaultItem : FileTreeItem := ⟨⟨[], false⟩, .File⟩

def itemAt (l : List FileTreeItem) (i : Nat) : FileTreeItem := l.getD i defaultItem

def pathAt (l : List FileTreeItem) (i : Nat) : List Char := (itemAt l i).info.full_path

def visibleAt (l : List FileTreeItem) (i : Nat) : Bool := (itemAt l i).info.visible

def kindAt (l : List FileTreeItem) (i : Nat) : FileTreeItemKind := (itemAt l i).kind

/-- Replace the visible flag of an item. -/
def setVis (x : FileTreeItem) (b : Bool) : FileTreeItem :=
  { x with info := { x.info with visible := b } }

/-- Set the collapsed flag when the item is a directory (the
`if let FileTreeItemKind::Path(..)` assignments in `collapse`/`expand`). -/
def setCollapsed (x : FileTreeItem) (b : Bool) : FileTreeItem :=
  match x.kind with
  | .Path _ => { x with kind := .Path b }
  | .File => x

/-- In-place update of the element at one index. -/
def modifyAt : List FileTreeItem → Nat → (FileTreeItem → FileTreeItem) → List FileTreeItem
  | [], _, _ => []
  | x :: xs, 0, f => f x :: xs
  | x :: xs, i + 1, f => x :: modifyAt xs i f

/-- The forward scan of `StatusTree::collapse`: set `visible = false` while the
path starts with the directory path plus a separator, stop at the first entry
failing the test (`return`). -/
def collapseHide (p : List Char) : List FileTreeItem → List FileTreeItem
  | [] => []
  | x :: xs =>
    if startsWithB x.info.full_path p then setVis x false :: collapseHide p xs
    else x :: xs

/-- `StatusTree::collapse(path, index)`. -/
def StatusTree.collapse (self : StatusTree) (path : List Char) (index : Nat) : StatusTree :=
  let t := modifyAt self.tree index (fun x => setCollapsed x true)
  { self with
    tree := t.take (index + 1) ++ collapseHide (path ++ ['/']) (t.drop (index + 1)) }

/-- The `inner_collapsed` skip test of the visibility walk. -/
def skipTest (inner : Option (List Char)) (x : FileTreeItem) : Bool :=
  match inner with
  | some cp => startsWithB x.info.full_path cp
  | none => false

/-- The new `inner_collapsed` marker after processing an entry in the main body
of the visibility walk. -/
def nextInner (x : FileTreeItem) : Option (List Char) :=
  match x.kind with
  | .Path true => some (x.info.full_path ++ ['/'])
  | _ => none

/-- The scope test `prefix.is_none() || item_path.starts_with(prefix)`. -/
def inScope (pre : Option (List Char)) (x : FileTreeItem) : Bool :=
  match pre with
  | none => true
  | some q => startsWithB x.info.full_path q

/-- The loop body of `StatusTree::update_visibility`, recursing over the
suffix of the sequence from `start_idx`, carrying the `inner_collapsed`
marker. The final `x :: xs` branch is the early `return` taken when outside
the scope with `set_defaults == false`. -/
def updateVisAux (pre : Option (List Char)) (sd : Bool) :
    Option (List Char) → List FileTreeItem → List FileTreeItem
  | _, [] => []
  | inner, x :: xs =>
    if skipTest inner x then
      (if sd then setVis x false else x) :: updateVisAux pre sd inner xs
    else if inScope pre x then
      setVis x true :: updateVisAux pre sd (nextInner x) xs
    else if sd then
      setVis x false :: updateVisAux pre sd (nextInner x) xs
    else
      x :: xs

/-- `StatusTree::update_visibility(prefix, start_idx, set_defaults)`. -/
def StatusTree.update_visibility (self : StatusTree) (pre : Option (List Char))
    (start_idx : Nat) (sd : Bool) : StatusTree :=
  { self with
    tree := self.tree.take start_idx ++ updateVisAux pre sd none (self.tree.drop start_idx) }

/-- `StatusTree::expand(path, current_index)`. -/
def StatusTree.expand (self : StatusTree) (path : List Char) (current_index : Nat) : StatusTree :=
  let t : StatusTree :=
    { self with tree := modifyAt self.tree current_index (fun x => setCollapsed x false) }
  t.update_visibility (some (path ++ ['/'])) (current_index + 1) false

def isVisibleIndex (l : List FileTreeItem) (idx : Nat) : Bool := visibleAt l idx

/-- The stepping loop of `StatusTree::selection_updown`; the fuel argument is
an upper bound on the iteration count (the Rust loop moves the candidate index
strictly toward a boundary each turn, so `length + 1` fuel is never
exhausted). -/
def updownLoop (l : List FileTreeItem) (up : Bool) (current : Nat) :
    Nat → Nat → Nat
  | 0, _ => current
  | fuel + 1, newIndex =>
    let itemsMax := l.length - 1
    let ni := min (if up then newIndex - 1 else newIndex + 1) itemsMax
    if isVisibleIndex l ni then ni
    else if ni = 0 ∨ ni = itemsMax then current
    else updownLoop l up current fuel ni

/-- `StatusTree::selection_updown`. -/
def StatusTree.selection_updown (self : StatusTree) (current_index : Nat) (up : Bool) :
    SelectionChange :=
  ⟨updownLoop self.tree up current_index (self.tree.length + 1) current_index, false⟩

/-- Modelled from the spec: the Tree Builder's ancestor lookup
`find_parent_index(path, hint_index)` (its implementation lives in
`filetree.rs`, which is not among the analyzed sources). Per §4.1 it returns
the position of the nearest ancestor directory entry for `path`, searching
backwards from the hint; 0 when no ancestor entry exists. -/
def findParentAux (l : List FileTreeItem) (path : List Char) : Nat → Nat
  | 0 => 0
  | i + 1 => if startsWithB path (pathAt l i ++ ['/']) then i else findParentAux l path i

/-- Modelled from the spec: see `findParentAux`. -/
def findParentIndex (l : List FileTreeItem) (path : List Char) (hint : Nat) : Nat :=
  findParentAux l path hint

/-- `StatusTree::selection_right`; returns the updated state (Rust mutates
`self`) together with the `SelectionChange`. -/
def StatusTree.selection_right (self : StatusTree) (current : Nat) :
    StatusTree × SelectionChange :=
  match kindAt self.tree current with
  | .Path true => (self.expand (pathAt self.tree current) current, ⟨current, true⟩)
  | _ => (self, ⟨current, false⟩)

/-- `StatusTree::selection_left`. -/
def StatusTree.selection_left (self : StatusTree) (current : Nat) :
    StatusTree × SelectionChange :=
  match kindAt self.tree current with
  | .File => (self, ⟨findParentIndex self.tree (pathAt self.tree current) current, false⟩)
  | .Path true => (self, ⟨findParentIndex self.tree (pathAt self.tree current) current, false⟩)
  | .Path false => (self.collapse (pathAt self.tree current) current, ⟨current, true⟩)

/-- `StatusTree::move_selection`; returns the updated state and the `bool`
result. -/
def StatusTree.move_selection (self : StatusTree) (dir : MoveSelection) :
    StatusTree × Bool :=
  match self.selection with
  | none => (self, false)
  | some selection =>
    let r : StatusTree × SelectionChange :=
      match dir with
      | .Up => (self, self.selection_updown selection true)
      | .Down => (self, self.selection_updown selection false)
      | .Left => self.selection_left selection
      | .Right => self.selection_right selection
    ({ r.1 with selection := some r.2.new_index },
      (r.2.new_index != selection) || r.2.changes)

/-- `StatusTree::selected_item`. -/
def StatusTree.selected_item (self : StatusTree) : Option FileTreeItem :=
  self.selection.map (fun i => itemAt self.tree i)

/-- `StatusTree::is_empty`. -/
def StatusTree.is_empty (self : StatusTree) : Bool := self.tree.isEmpty

/-- Rust `slice::binary_search_by` as `StatusTree::find_last_selection` invokes
it on the path-sorted entry slice; fuel bounds the halving depth
(`length + 1` suffices). -/
def binSearchLoop (l : List FileTreeItem) (target : List Char) :
    Nat → Nat → Nat → Option Nat
  | 0, _, _ => none
  | fuel + 1, left, right =>
    if left < right then
      let mid := left + (right - left) / 2
      if pathLtB (pathAt l mid) target then binSearchLoop l target fuel (mid + 1) right
      else if pathLtB target (pathAt l mid) then binSearchLoop l target fuel left mid
      else some mid
    else none

def binarySearchPath (l : List FileTreeItem) (target : List Char) : Option Nat :=
  binSearchLoop l target (l.length + 1) 0 l.length

/-- `StatusTree::find_last_selection`. -/
def StatusTree.find_last_selection (self : StatusTree) (last_selection : List Char)
    (last_index : Nat) : Option Nat :=
  if self.is_empty then none
  else
    match binarySearchPath self.tree last_selection with
    | some i => some i
    | none => some (min last_index (self.tree.length - 1))

/-- Modelled from the spec: `StatusTree::update` (rebuild), with the Tree
Builder's output passed as an explicit argument — the builder
(`FileTreeItems::new` in `filetree.rs`) is an external collaborator per §4.1
and not among the analyzed sources; the collapsed-path snapshot it consumes is
already reflected in its output. Everything else follows the source of
`update`: snapshot the selected path and numeric index, install the new
sequence, reconcile the selection, then recompute visibility over the whole
sequence. -/
def StatusTree.updateWith (self : StatusTree) (newTree : List FileTreeItem) : StatusTree :=
  let last_selection := self.selected_item.map (fun e => e.info.full_path)
  let last_selection_index := self.selection.getD 0
  let t1 : StatusTree := { tree := newTree, selection := none }
  let sel : Option Nat :=
    match last_selection with
    | some ls =>
      match t1.find_last_selection ls last_selection_index with
      | some i => some i
      | none => if newTree.isEmpty then none else some 0
    | none => if newTree.isEmpty then none else some 0
  let t2 : StatusTree := { tree := newTree, selection := sel }
  t2.update_visibility none 0 true

/-- Strict ascending sortedness by `full_path` (invariant I1 together with path
uniqueness): every entry's path is lexicographically below every later one. -/
def sortedStrict : List FileTreeItem → Bool
  | [] => true
  | x :: xs =>
    xs.all (fun y => pathLtB x.info.full_path y.info.full_path) && sortedStrict xs

/-- Invariant I3's right-hand side: some proper ancestor directory entry of
entry `i` is collapsed. -/
def hasCollapsedAnc (l : List FileTreeItem) (i : Nat) : Prop :=
  ∃ j, j < l.length ∧ kindAt l j = .Path true ∧
    startsWithB (pathAt l i) (pathAt l j ++ ['/']) = true

/-- A structural mutation of `move_selection`: collapse via Left on an expanded
directory, or expand via Right on a collapsed directory. -/
def structMut (t : StatusTree) (i : Nat) (d : MoveSelection) : Prop :=
  (d = .Left ∧ kindAt t.tree i = .Path false) ∨
    (d = .Right ∧ kindAt t.tree i = .Path true)

/-- The selection validity invariant: `selection` is `none` iff the entry list
is empty, and a present selection is a valid index. -/
def validSelB (t : StatusTree) : Bool :=
  (t.selection.isNone == t.tree.isEmpty) &&
    (match t.selection with
     | some i => decide (i < t.tree.length)
     | none => true)

/-- Shorthand for path literals. -/
def pstr (s : String) : List Char := s.data

/-- A directory entry with the given collapsed and visible flags. -/
def mkDir (s : String) (c v : Bool) : FileTreeItem := ⟨⟨s.data, v⟩, .Path c⟩

/-- A file entry with the given visible flag. -/
def mkFile (s : String) (v : Bool) : FileTreeItem := ⟨⟨s.data, v⟩, .File⟩

/-- The five-entry sequence `a, a/b, a/b/c, a/b2, a/b2/d` with all directories
expanded and all entries visible. -/
def exTree : List FileTreeItem :=
  [ mkDir (r"a") false true, mkDir (r"a/b") false true, mkFile (r"a/b/c") true,
    mkDir (r"a/b2") false true, mkFile (r"a/b2/d") true ]

/-- Same shape, with directory `a` collapsed. -/
def exTreeC : List FileTreeItem :=
  [ mkDir (r"a") true true, mkDir (r"a/b") false true, mkFile (r"a/b/c") true,
    mkDir (r"a/b2") false true, mkFile (r"a/b2/d") true ]

/-- A path-sorted sequence in which the descendants of directory `a` are not
contiguous: `"a" < "a!b" < "a/c"` in byte order, since `'!' < '/'`. -/
def cexTree : List FileTreeItem :=
  [ mkDir (r"a") false true, mkFile (r"a!b") true, mkFile (r"a/c") true ]

/-- The non-contiguous sequence with `a` collapsed. -/
def cexTreeC : List FileTreeItem :=
  [ mkDir (r"a") true true, mkFile (r"a!b") true, mkFile (r"a/c") false ]

/-- Two entries `a` (directory), `a/b` (file). -/
def abTree : List FileTreeItem := [ mkDir (r"a") false true, mkFile (r"a/b") true ]

/-- During the visibility walk: the running `inner_collapsed` marker covers
entry `i` of the remaining suffix. -/
def MarkerHit (ys : List FileTreeItem) (inner : Option (List Char)) (i : Nat) : Prop :=
  ∃ cp, inner = some cp ∧ startsWithB (pathAt ys i) cp = true

/-- Entry `i` has a collapsed proper ancestor directory among the *earlier*
entries of the same list. -/
def AncBefore (ys : List FileTreeItem) (i : Nat) : Prop :=
  ∃ j, j < i ∧ kindAt ys j = .Path true ∧
    startsWithB (pathAt ys i) (pathAt ys j ++ ['/']) = true

/-! ### Basic lemmas about indexed access -/

theorem itemAt_nil (i : Nat) : itemAt [] i = defaultItem := rfl

theorem itemAt_cons_zero (x : FileTreeItem) (xs : List FileTreeItem) :
    itemAt (x :: xs) 0 = x := rfl

theorem itemAt_cons_succ (x : FileTreeItem) (xs : List FileTreeItem) (i : Nat) :
    itemAt (x :: xs) (i + 1) = itemAt xs i := rfl

theorem itemAt_eq_default (l : List FileTreeItem) (i : Nat) (h : l.length ≤ i) :
    itemAt l i = defaultItem := by
  induction l generalizing i with
  | nil => rfl
  | cons x xs ih =>
    cases i with
    | zero => simp at h
    | succ k => rw [itemAt_cons_succ]; exact ih k (by simpa using h)

theorem visibleAt_true_lt (l : List FileTreeItem) (i : Nat) (h : visibleAt l i = true) :
    i < l.length := by
  by_contra hc
  push_neg at hc
  rw [visibleAt, itemAt_eq_default l i hc] at h
  simp [defaultItem] at h

theorem itemAt_mem (l : List FileTreeItem) (i : Nat) (h : i < l.length) : itemAt l i ∈ l := by
  induction l generalizing i with
  | nil => simp at h
  | cons x xs ih =>
    cases i with
    | zero => exact List.mem_cons_self x xs
    | succ k => exact List.mem_cons_of_mem x (ih k (by simpa using h))

theorem itemAt_append_left (l₁ l₂ : List FileTreeItem) (i : Nat) (h : i < l₁.length) :
    itemAt (l₁ ++ l₂) i = itemAt l₁ i := by
  induction l₁ generalizing i with
  | nil => simp at h
  | cons x xs ih =>
    cases i with
    | zero => rfl
    | succ k => simpa [itemAt_cons_succ] using ih k (by simpa using h)

theorem itemAt_append_right (l₁ l₂ : List FileTreeItem) (i : Nat) (h : l₁.length ≤ i) :
    itemAt (l₁ ++ l₂) i = itemAt l₂ (i - l₁.length) := by
  induction l₁ generalizing i with
  | nil => simp
  | cons x xs ih =>
    cases i with
    | zero => simp at h
    | succ k => simpa [itemAt_cons_succ, Nat.succ_sub_succ] using ih k (by simpa using h)

theorem itemAt_take (l : List FileTreeItem) (n i : Nat) (h : i < n) :
    itemAt (l.take n) i = itemAt l i := by
  induction l generalizing n i with
  | nil => simp
  | cons x xs ih =>
    cases n with
    | zero => omega
    | succ m =>
      cases i with
      | zero => rfl
      | succ k => simpa [List.take_succ_cons, itemAt_cons_succ] using ih m k (by omega)

theorem itemAt_drop (l : List FileTreeItem) (n i : Nat) :
    itemAt (l.drop n) i = itemAt l (n + i) := by
  induction l generalizing n with
  | nil =>
    rw [List.drop_nil, itemAt_eq_default [] i (by simp), itemAt_eq_default [] (n + i) (by simp)]
  | cons x xs ih =>
    cases n with
    | zero => simp
    | succ m =>
      rw [List.drop_succ_cons, ih m, Nat.succ_add]
      rfl

/-! ### Frame lemmas for the mutating helpers -/

theorem modifyAt_length (l : List FileTreeItem) (i : Nat) (f : FileTreeItem → FileTreeItem) :
    (modifyAt l i f).length = l.length := by
  induction l generalizing i with
  | nil => rfl
  | cons x xs ih =>
    cases i with
    | zero => rfl
    | succ k => simp [modifyAt, ih]

theorem setCollapsed_info (x : FileTreeItem) (b : Bool) : (setCollapsed x b).info = x.info := by
  cases x with
  | mk info kind => cases kind <;> rfl

theorem setVis_path (x : FileTreeItem) (b : Bool) :
    (setVis x b).info.full_path = x.info.full_path := rfl

theorem itemAt_modifyAt_info (l : List FileTreeItem) (i : Nat)
    (f : FileTreeItem → FileTreeItem) (hf : ∀ x, (f x).info = x.info) (k : Nat) :
    (itemAt (modifyAt l i f) k).info = (itemAt l k).info := by
  induction l generalizing i k with
  | nil => rfl
  | cons x xs ih =>
    cases i with
    | zero =>
      cases k with
      | zero => exact hf x
      | succ m => rfl
    | succ j =>
      cases k with
      | zero => rfl
      | succ m => simpa [modifyAt, itemAt_cons_succ] using ih j m

theorem collapseHide_length (p : List Char) (l : List FileTreeItem) :
    (collapseHide p l).length = l.length := by
  induction l with
  | nil => rfl
  | cons x xs ih =>
    by_cases h : startsWithB x.info.full_path p = true
    · simp [collapseHide, h, ih]
    · simp [collapseHide, h]

theorem updateVisAux_length (pre : Option (List Char)) (sd : Bool)
    (inner : Option (List Char)) (l : List FileTreeItem) :
    (updateVisAux pre sd inner l).length = l.length := by
  induction l generalizing inner with
  | nil => rfl
  | cons x xs ih =>
    by_cases h1 : skipTest inner x = true
    · simp [updateVisAux, h1, ih]
    · by_cases h2 : inScope pre x = true
      · simp [updateVisAux, h1, h2, ih]
      · cases sd with
        | true => simp [updateVisAux, h1, h2, ih]
        | false => simp [updateVisAux, h1, h2]

theorem pathAt_updateVisAux (pre : Option (List Char)) (sd : Bool)
    (inner : Option (List Char)) (l : List FileTreeItem) (k : Nat) :
    pathAt (updateVisAux pre sd inner l) k = pathAt l k := by
  induction l generalizing inner k with
  | nil => rfl
  | cons x xs ih =>
    by_cases h1 : skipTest inner x = true
    · cases k with
      | zero => cases sd <;> simp [updateVisAux, h1, pathAt, itemAt_cons_zero, setVis_path]
      | succ m => cases sd <;>
          simpa [updateVisAux, h1, pathAt, itemAt_cons_succ] using ih inner m
    · by_cases h2 : inScope pre x = true
      · cases k with
        | zero => simp [updateVisAux, h1, h2, pathAt, itemAt_cons_zero, setVis_path]
        | succ m =>
          simpa [updateVisAux, h1, h2, pathAt, itemAt_cons_succ] using ih (nextInner x) m
      · cases sd with
        | true =>
          cases k with
          | zero => simp [updateVisAux, h1, h2, pathAt, itemAt_cons_zero, setVis_path]
          | succ m =>
            simpa [updateVisAux, h1, h2, pathAt, itemAt_cons_succ] using ih (nextInner x) m
        | false => simp [updateVisAux, h1, h2]

/-! ### Order and prefix lemmas on paths -/

theorem pathLtB_irrefl (s : List Char) : pathLtB s s = false := by
  induction s with
  | nil => rfl
  | cons a as ih => simp [pathLtB, lt_irrefl, ih]

theorem pathLtB_asymm (a b : List Char) (hab : pathLtB a b = true)
    (hba : pathLtB b a = true) : False := by
  induction a generalizing b with
  | nil =>
    cases b with
    | nil => simp [pathLtB] at hab
    | cons c cs => simp [pathLtB] at hba
  | cons x xs ih =>
    cases b with
    | nil => simp [pathLtB] at hab
    | cons y ys =>
      rcases lt_trichotomy x y with h | h | h
      · simp [pathLtB, h, h.asymm, lt_irrefl] at hba
      · subst h
        simp [pathLtB, lt_irrefl] at hab hba
        exact ih ys hab hba
      · simp [pathLtB, h, h.asymm, lt_irrefl] at hab

theorem pathLtB_total_eq (a b : List Char) (hab : pathLtB a b = false)
    (hba : pathLtB b a = false) : a = b := by
  induction a generalizing b with
  | nil =>
    cases b with
    | nil => rfl
    | cons c cs => simp [pathLtB] at hab
  | cons x xs ih =>
    cases b with
    | nil => simp [pathLtB] at hba
    | cons y ys =>
      rcases lt_trichotomy x y with h | h | h
      · simp [pathLtB, h] at hab
      · subst h
        simp [pathLtB, lt_irrefl] at hab hba
        rw [ih ys hab hba]
      · simp [pathLtB, h] at hba

theorem swB_append (a t : List Char) : startsWithB (a ++ t) a = true := by
  induction a with
  | nil => cases t <;> rfl
  | cons x xs _ => simp [startsWithB, List.isPrefixOf]

theorem swB_trans (a b c : List Char) (h1 : startsWithB b a = true)
    (h2 : startsWithB c b = true) : startsWithB c a = true := by
  induction a generalizing b c with
  | nil => cases c <;> rfl
  | cons x xs ih =>
    cases b with
    | nil => simp [startsWithB, List.isPrefixOf] at h1
    | cons y ys =>
      cases c with
      | nil => simp [startsWithB, List.isPrefixOf] at h2
      | cons z zs =>
        simp only [startsWithB, List.isPrefixOf, Bool.and_eq_true, beq_iff_eq] at h1 h2 ⊢
        exact ⟨h1.1.trans h2.1, ih ys zs h1.2 h2.2⟩

theorem swB_length (s q : List Char) (h : startsWithB s q = true) : q.length ≤ s.length := by
  induction q generalizing s with
  | nil => simp
  | cons x xs ih =>
    cases s with
    | nil => simp [startsWithB, List.isPrefixOf] at h
    | cons y ys =>
      simp only [startsWithB, List.isPrefixOf, Bool.and_eq_true] at h
      simpa using ih ys h.2

theorem pathLtB_of_swB (s q : List Char) (h : startsWithB s q = true) (hne : q ≠ s) :
    pathLtB q s = true := by
  induction q generalizing s with
  | nil =>
    cases s with
    | nil => exact absurd rfl hne
    | cons c cs => rfl
  | cons x xs ih =>
    cases s with
    | nil => simp [startsWithB, List.isPrefixOf] at h
    | cons y ys =>
      simp only [startsWithB, List.isPrefixOf, Bool.and_eq_true, beq_iff_eq] at h
      obtain ⟨rfl, hpfx⟩ := h
      have hne2 : xs ≠ ys := fun he => hne (by rw [he])
      simp [pathLtB, lt_irrefl]
      exact ih ys hpfx hne2

theorem pathLtB_of_under (d s : List Char) (h : startsWithB s (d ++ ['/']) = true) :
    pathLtB d s = true := by
  have h1 : startsWithB s d = true :=
    swB_trans d (d ++ ['/']) s (swB_append d ['/']) h
  have hne : d ≠ s := by
    intro he
    subst he
    have := swB_length d (d ++ ['/']) h
    simp at this
  exact pathLtB_of_swB s d h1 hne

/-! ### Sortedness access -/

theorem sorted_lt (l : List FileTreeItem) (hs : sortedStrict l = true) (i j : Nat)
    (hij : i < j) (hj : j < l.length) : pathLtB (pathAt l i) (pathAt l j) = true := by
  induction l generalizing i j with
  | nil => simp at hj
  | cons x xs ih =>
    simp only [sortedStrict, Bool.and_eq_true, List.all_eq_true] at hs
    obtain ⟨h1, h2⟩ := hs
    cases j with
    | zero => omega
    | succ k =>
      cases i with
      | zero =>
        have hk : k < xs.length := by simpa using hj
        exact h1 (itemAt xs k) (itemAt_mem xs k hk)
      | succ m =>
        exact ih h2 m k (by omega) (by simpa using hj)

theorem sorted_anc_lt_index (l : List FileTreeItem) (hs : sortedStrict l = true)
    (i j : Nat) (hi : i < l.length) (hj : j < l.length)
    (h : startsWithB (pathAt l i) (pathAt l j ++ ['/']) = true) : j < i := by
  have hlt : pathLtB (pathAt l j) (pathAt l i) = true :=
    pathLtB_of_under (pathAt l j) (pathAt l i) h
  rcases Nat.lt_trichotomy j i with hc | hc | hc
  · exact hc
  · subst hc
    rw [pathLtB_irrefl] at hlt
    exact absurd hlt (by simp)
  · exact absurd hlt (fun hx => pathLtB_asymm _ _ (sorted_lt l hs i j hc hj) hx)

/-! ### Characterization of the collapse scan -/

theorem pathAt_modifyAt (l : List FileTreeItem) (i : Nat) (f : FileTreeItem → FileTreeItem)
    (hf : ∀ x, (f x).info = x.info) (k : Nat) : pathAt (modifyAt l i f) k = pathAt l k := by
  rw [pathAt, pathAt, itemAt_modifyAt_info l i f hf k]

theorem visibleAt_modifyAt (l : List FileTreeItem) (i : Nat) (f : FileTreeItem → FileTreeItem)
    (hf : ∀ x, (f x).info = x.info) (k : Nat) : visibleAt (modifyAt l i f) k = visibleAt l k := by
  rw [visibleAt, visibleAt, itemAt_modifyAt_info l i f hf k]

theorem collapseHide_spec (p : List Char) (l : List FileTreeItem)
    (hcl : ∀ a b, a ≤ b → b < l.length → startsWithB (pathAt l b) p = true →
      startsWithB (pathAt l a) p = true)
    (k : Nat) (hk : k < l.length) :
    (startsWithB (pathAt l k) p = true → visibleAt (collapseHide p l) k = false) ∧
    (startsWithB (pathAt l k) p = false → itemAt (collapseHide p l) k = itemAt l k) := by
  induction l generalizing k with
  | nil => simp at hk
  | cons x xs ih =>
    by_cases hx : startsWithB x.info.full_path p = true
    · rw [collapseHide, if_pos hx]
      cases k with
      | zero =>
        constructor
        · intro _; rfl
        · intro h; rw [pathAt, itemAt_cons_zero] at h; rw [hx] at h; cases h
      | succ m =>
        have hcl' : ∀ a b, a ≤ b → b < xs.length → startsWithB (pathAt xs b) p = true →
            startsWithB (pathAt xs a) p = true := by
          intro a b hab hb hpb
          have := hcl (a + 1) (b + 1) (by omega) (by simpa using Nat.succ_lt_succ hb)
          rw [pathAt, itemAt_cons_succ, pathAt, itemAt_cons_succ] at this
          exact this hpb
        have hm : m < xs.length := by simpa using hk
        constructor
        · intro h
          rw [pathAt, itemAt_cons_succ] at h
          rw [visibleAt, itemAt_cons_succ]
          exact (ih hcl' m hm).1 h
        · intro h
          rw [pathAt, itemAt_cons_succ] at h
          rw [itemAt_cons_succ, itemAt_cons_succ]
          exact (ih hcl' m hm).2 h
    · rw [collapseHide, if_neg hx]
      cases k with
      | zero =>
        constructor
        · intro h
          rw [pathAt, itemAt_cons_zero] at h
          exact absurd h hx
        · intro _; rfl
      | succ m =>
        constructor
        · intro h
          have h0 := hcl 0 (m + 1) (by omega) hk h
          rw [pathAt, itemAt_cons_zero] at h0
          exact absurd h0 hx
        · intro _; rfl

theorem collapse_tree_length (t : StatusTree) (path : List Char) (index : Nat) :
    (t.collapse path index).tree.length = t.tree.length := by
  simp [StatusTree.collapse, List.length_append, List.length_take, collapseHide_length,
    List.length_drop, modifyAt_length]
  omega

theorem collapse_itemAt_le (t : StatusTree) (path : List Char) (index : Nat)
    (hidx : index < t.tree.length) (k : Nat) (hk : k ≤ index) :
    (itemAt (t.collapse path index).tree k).info = (itemAt t.tree k).info := by
  rw [StatusTree.collapse]
  have hlen : (List.take (index + 1) (modifyAt t.tree index fun x => setCollapsed x true)).length
      = index + 1 := by
    rw [List.length_take, modifyAt_length]; omega
  rw [itemAt_append_left _ _ k (by omega : k < _), itemAt_take _ _ _ (by omega),
    itemAt_modifyAt_info _ _ _ (fun x => setCollapsed_info x true)]

theorem collapse_itemAt_gt (t : StatusTree) (path : List Char) (index : Nat)
    (hidx : index < t.tree.length) (k : Nat) (hk : index < k) :
    itemAt (t.collapse path index).tree k =
      itemAt (collapseHide (path ++ ['/'])
        ((modifyAt t.tree index fun x => setCollapsed x true).drop (index + 1)))
        (k - (index + 1)) := by
  rw [StatusTree.collapse]
  have hlen : (List.take (index + 1) (modifyAt t.tree index fun x => setCollapsed x true)).length
      = index + 1 := by
    rw [List.length_take, modifyAt_length]; omega
  rw [itemAt_append_right _ _ k (by omega), hlen]

/-- C1 (amended): on a path-sorted sequence in which the entries under
directory `D` (those whose path starts with `D ++ "/"`) form a contiguous run
immediately after index `i`, `collapse(D, i)` sets `visible = false` for
exactly the entries under `D` and leaves the visible flag of every other entry
unchanged. Plain sortedness alone is not enough — see the counterexample. -/
theorem C1_collapse_exact (t : StatusTree) (D : List Char) (i : Nat)
    (hsort : sortedStrict t.tree = true)
    (hi : i < t.tree.length)
    (hD : pathAt t.tree i = D)
    (_hdir : kindAt t.tree i = .Path false ∨ kindAt t.tree i = .Path true)
    (hcontig : ∀ m, m < t.tree.length → ∀ k, k < m → i < k →
      startsWithB (pathAt t.tree m) (D ++ ['/']) = true →
      startsWithB (pathAt t.tree k) (D ++ ['/']) = true)
    (k : Nat) (hk : k < t.tree.length) :
    (startsWithB (pathAt t.tree k) (D ++ ['/']) = true →
      visibleAt (t.collapse D i).tree k = false) ∧
    (startsWithB (pathAt t.tree k) (D ++ ['/']) = false →
      visibleAt (t.collapse D i).tree k = visibleAt t.tree k) := by
  have hnb : ∀ k2, k2 ≤ i → startsWithB (pathAt t.tree k2) (D ++ ['/']) = false := by
    intro k2 hk2
    by_contra hc
    rw [Bool.not_eq_false] at hc
    rw [← hD] at hc
    have := sorted_anc_lt_index t.tree hsort k2 i (by omega) hi hc
    omega
  rcases Nat.lt_or_ge i k with hik | hik
  · -- k is strictly after the directory entry: the collapseHide scan covers it
    have hmlen : (modifyAt t.tree i fun x => setCollapsed x true).length = t.tree.length :=
      modifyAt_length t.tree i _
    set m := modifyAt t.tree i fun x => setCollapsed x true with hm
    set ds := m.drop (i + 1) with hds
    have hdslen : ds.length = t.tree.length - (i + 1) := by
      rw [hds, List.length_drop, hmlen]
    have hpath_ds : ∀ r, pathAt ds r = pathAt t.tree (i + 1 + r) := by
      intro r
      rw [hds, pathAt, itemAt_drop, ← pathAt,
        pathAt_modifyAt t.tree i _ (fun x => setCollapsed_info x true)]
    have hvis_ds : ∀ r, visibleAt ds r = visibleAt t.tree (i + 1 + r) := by
      intro r
      rw [hds, visibleAt, itemAt_drop, ← visibleAt,
        visibleAt_modifyAt t.tree i _ (fun x => setCollapsed_info x true)]
    have hcl : ∀ a b, a ≤ b → b < ds.length →
        startsWithB (pathAt ds b) (D ++ ['/']) = true →
        startsWithB (pathAt ds a) (D ++ ['/']) = true := by
      intro a b hab hb hpb
      rcases Nat.eq_or_lt_of_le hab with rfl | hab'
      · exact hpb
      · rw [hpath_ds] at hpb ⊢
        exact hcontig (i + 1 + b) (by omega) (i + 1 + a) (by omega) (by omega) hpb
    have hr : k - (i + 1) < ds.length := by omega
    have hit := collapse_itemAt_gt t D i hi k hik
    have hpds : pathAt ds (k - (i + 1)) = pathAt t.tree k := by
      rw [hpath_ds]; congr 1; omega
    constructor
    · intro h
      have := (collapseHide_spec (D ++ ['/']) ds hcl (k - (i + 1)) hr).1 (by rw [hpds]; exact h)
      rw [visibleAt, hit]
      exact this
    · intro h
      have := (collapseHide_spec (D ++ ['/']) ds hcl (k - (i + 1)) hr).2 (by rw [hpds]; exact h)
      rw [visibleAt, hit, this, ← visibleAt, hvis_ds]
      congr 1
      omega
  · -- k is at or before the directory entry: untouched, and never under D
    have hfalse := hnb k hik
    constructor
    · intro h
      rw [hfalse] at h
      cases h
    · intro _
      rw [visibleAt, visibleAt, collapse_itemAt_le t D i hi k hik]

/-- C1 counterexample: the sequence `a`(dir), `a!b`, `a/c` is sorted ascending
by path (`'!' < '/'` in byte order) and its entry 0 is the directory `a`, yet
`collapse("a", 0)` leaves entry 2 (`a/c`, which is under `"a/"`) visible,
because the forward scan stops at `a!b`. -/
theorem C1_counterexample :
    sortedStrict cexTree = true ∧
    kindAt cexTree 0 = .Path false ∧
    pathAt cexTree 0 = pstr (r"a") ∧
    startsWithB (pathAt cexTree 2) (pstr (r"a") ++ ['/']) = true ∧
    visibleAt cexTree 2 = true ∧
    visibleAt ((StatusTree.mk cexTree (some 0)).collapse (pstr (r"a")) 0).tree 2 = true := by
  decide

/-- C1 witness: the amended theorem applied to the concrete five-entry tree,
collapsing `a/b` at index 1; entry 2 (`a/b/c`) becomes invisible and entry 3
(`a/b2`, a sibling sharing the string prefix `a/b`) keeps its flag. -/
theorem C1_witness :
    visibleAt ((StatusTree.mk exTree (some 0)).collapse (pstr (r"a/b")) 1).tree 2 = false ∧
    visibleAt ((StatusTree.mk exTree (some 0)).collapse (pstr (r"a/b")) 1).tree 3 = true := by
  constructor
  · exact (C1_collapse_exact (StatusTree.mk exTree (some 0)) (pstr (r"a/b")) 1
      (by decide) (by decide) (by decide) (Or.inl (by decide))
      (by decide) 2 (by decide)).1 (by decide)
  · have := (C1_collapse_exact (StatusTree.mk exTree (some 0)) (pstr (r"a/b")) 1
      (by decide) (by decide) (by decide) (Or.inl (by decide))
      (by decide) 3 (by decide)).2 (by decide)
    rw [this]
    decide

/-! ### Correctness of the visibility walk -/

theorem pathAt_cons_zero (x : FileTreeItem) (xs : List FileTreeItem) :
    pathAt (x :: xs) 0 = x.info.full_path := rfl

theorem pathAt_cons_succ (x : FileTreeItem) (xs : List FileTreeItem) (n : Nat) :
    pathAt (x :: xs) (n + 1) = pathAt xs n := rfl

theorem kindAt_cons_zero (x : FileTreeItem) (xs : List FileTreeItem) :
    kindAt (x :: xs) 0 = x.kind := rfl

theorem kindAt_cons_succ (x : FileTreeItem) (xs : List FileTreeItem) (n : Nat) :
    kindAt (x :: xs) (n + 1) = kindAt xs n := rfl

theorem visibleAt_cons_zero (x : FileTreeItem) (xs : List FileTreeItem) :
    visibleAt (x :: xs) 0 = x.info.visible := rfl

theorem visibleAt_cons_succ (x : FileTreeItem) (xs : List FileTreeItem) (n : Nat) :
    visibleAt (x :: xs) (n + 1) = visibleAt xs n := rfl

theorem updateVisAux_cons_skip (pre : Option (List Char)) (sd : Bool)
    (inner : Option (List Char)) (x : FileTreeItem) (xs : List FileTreeItem)
    (h : skipTest inner x = true) :
    updateVisAux pre sd inner (x :: xs) =
      (if sd then setVis x false else x) :: updateVisAux pre sd inner xs := by
  simp [updateVisAux, h]

theorem updateVisAux_cons_main (pre : Option (List Char)) (sd : Bool)
    (inner : Option (List Char)) (x : FileTreeItem) (xs : List FileTreeItem)
    (h : skipTest inner x = false) (h2 : inScope pre x = true) :
    updateVisAux pre sd inner (x :: xs) =
      setVis x true :: updateVisAux pre sd (nextInner x) xs := by
  simp [updateVisAux, h, h2]

theorem nextInner_some (x : FileTreeItem) (cp : List Char) (h : nextInner x = some cp) :
    x.kind = .Path true ∧ cp = x.info.full_path ++ ['/'] := by
  cases hk : x.kind with
  | File => rw [nextInner, hk] at h; cases h
  | Path b =>
    cases b with
    | false => rw [nextInner, hk] at h; cases h
    | true =>
      rw [nextInner, hk] at h
      exact ⟨rfl, by cases h; rfl⟩
theorem visAux_correct (ys : List FileTreeItem) :
    ∀ (inner : Option (List Char)),
    (∀ j k m, j < k → k < m → m < ys.length →
      startsWithB (pathAt ys m) (pathAt ys j ++ ['/']) = true →
      startsWithB (pathAt ys k) (pathAt ys j ++ ['/']) = true) →
    (∀ cp, inner = some cp → ∀ k m, k < m → m < ys.length →
      startsWithB (pathAt ys m) cp = true → startsWithB (pathAt ys k) cp = true) →
    ∀ i, i < ys.length →
    (visibleAt (updateVisAux none true inner ys) i = true ↔
      ¬ (MarkerHit ys inner i ∨ AncBefore ys i)) := by
  induction ys with
  | nil => intro inner _ _ i hi; simp at hi
  | cons x xs ih =>
    intro inner hcontig hinner i hi
    have hcontig' : ∀ j k m, j < k → k < m → m < xs.length →
        startsWithB (pathAt xs m) (pathAt xs j ++ ['/']) = true →
        startsWithB (pathAt xs k) (pathAt xs j ++ ['/']) = true := by
      intro j k m hjk hkm hm hsw
      have h := hcontig (j + 1) (k + 1) (m + 1) (by omega) (by omega)
        (by simp; omega)
        (by rw [pathAt_cons_succ, pathAt_cons_succ]; exact hsw)
      rwa [pathAt_cons_succ, pathAt_cons_succ] at h
    by_cases hsk : skipTest inner x = true
    · -- skip branch: the marker covers `x`
      obtain ⟨cp, hin, hx⟩ : ∃ cp, inner = some cp ∧ startsWithB x.info.full_path cp = true := by
        cases inner with
        | none => simp [skipTest] at hsk
        | some cp => exact ⟨cp, rfl, by simpa [skipTest] using hsk⟩
      subst hin
      rw [updateVisAux_cons_skip none true (some cp) x xs hsk]
      have hinner' : ∀ cp2, (some cp : Option (List Char)) = some cp2 → ∀ k m, k < m →
          m < xs.length → startsWithB (pathAt xs m) cp2 = true →
          startsWithB (pathAt xs k) cp2 = true := by
        intro cp2 hcp2 k m hkm hm hsw
        obtain rfl : cp = cp2 := Option.some.inj hcp2
        have h := hinner cp rfl (k + 1) (m + 1) (by omega) (by simp; omega)
          (by rw [pathAt_cons_succ]; exact hsw)
        rwa [pathAt_cons_succ] at h
      cases i with
      | zero =>
        have hmh : MarkerHit (x :: xs) (some cp) 0 := ⟨cp, rfl, hx⟩
        simp only [if_true, visibleAt_cons_zero]
        constructor
        · intro h; cases h
        · intro h; exact ((h (Or.inl hmh)).elim)
      | succ n =>
        have hn : n < xs.length := by simpa using hi
        rw [visibleAt_cons_succ]
        rw [ih (some cp) hcontig' hinner' n hn]
        constructor
        · intro h hcase
          apply h
          rcases hcase with hm | ha
          · rcases hm with ⟨cp2, hcp2, hsw⟩
            obtain rfl : cp = cp2 := Option.some.inj hcp2
            refine Or.inl ⟨cp, rfl, ?_⟩
            rwa [pathAt_cons_succ] at hsw
          · rcases ha with ⟨j, hj, hkind, hsw⟩
            cases j with
            | zero =>
              -- ancestor is `x` itself: its subtree lies inside the marker scope
              rw [pathAt_cons_succ, pathAt_cons_zero] at hsw
              have h1 : startsWithB (x.info.full_path ++ ['/']) cp = true :=
                swB_trans cp x.info.full_path (x.info.full_path ++ ['/']) hx
                  (swB_append x.info.full_path ['/'])
              have h2 : startsWithB (pathAt xs n) cp = true :=
                swB_trans cp (x.info.full_path ++ ['/']) (pathAt xs n) h1 hsw
              exact Or.inl ⟨cp, rfl, h2⟩
            | succ j2 =>
              rw [pathAt_cons_succ] at hsw
              rw [pathAt_cons_succ] at hsw
              rw [kindAt_cons_succ] at hkind
              exact Or.inr ⟨j2, by omega, hkind, hsw⟩
        · intro h hcase
          apply h
          rcases hcase with hm | ha
          · rcases hm with ⟨cp2, hcp2, hsw⟩
            obtain rfl : cp = cp2 := Option.some.inj hcp2
            refine Or.inl ⟨cp, rfl, ?_⟩
            rw [pathAt_cons_succ]
            exact hsw
          · rcases ha with ⟨j, hj, hkind, hsw⟩
            refine Or.inr ⟨j + 1, by omega, ?_, ?_⟩
            · rwa [kindAt_cons_succ]
            · rw [pathAt_cons_succ, pathAt_cons_succ]
              exact hsw
    · -- main-body branch
      have hskf : skipTest inner x = false := by
        revert hsk; cases skipTest inner x <;> simp
      have hxfalse : ∀ cp, inner = some cp → startsWithB x.info.full_path cp = false := by
        intro cp hcp
        rw [hcp] at hskf
        simpa [skipTest] using hskf
      rw [updateVisAux_cons_main none true inner x xs hskf rfl]
      have hinner' : ∀ cp2, nextInner x = some cp2 → ∀ k m, k < m →
          m < xs.length → startsWithB (pathAt xs m) cp2 = true →
          startsWithB (pathAt xs k) cp2 = true := by
        intro cp2 hcp2 k m hkm hm hsw
        obtain ⟨hkind, hcp2eq⟩ := nextInner_some x cp2 hcp2
        subst hcp2eq
        have h := hcontig 0 (k + 1) (m + 1) (by omega) (by omega) (by simp; omega)
          (by rw [pathAt_cons_succ, pathAt_cons_zero]; exact hsw)
        rwa [pathAt_cons_succ, pathAt_cons_zero] at h
      cases i with
      | zero =>
        rw [visibleAt_cons_zero]
        constructor
        · intro _ hcase
          rcases hcase with hm | ha
          · rcases hm with ⟨cp, hcp, hsw⟩
            rw [pathAt_cons_zero] at hsw
            rw [hxfalse cp hcp] at hsw
            cases hsw
          · rcases ha with ⟨j, hj, _, _⟩
            omega
        · intro _
          rfl
      | succ n =>
        have hn : n < xs.length := by simpa using hi
        rw [visibleAt_cons_succ]
        rw [ih (nextInner x) hcontig' hinner' n hn]
        constructor
        · intro h hcase
          apply h
          rcases hcase with hm | ha
          · -- the old marker cannot reach past `x` once `x` escaped it
            rcases hm with ⟨cp, hcp, hsw⟩
            have h0 := hinner cp hcp 0 (n + 1) (by omega) hi hsw
            rw [pathAt_cons_zero] at h0
            rw [hxfalse cp hcp] at h0
            cases h0
          · rcases ha with ⟨j, hj, hkind, hsw⟩
            cases j with
            | zero =>
              rw [kindAt_cons_zero] at hkind
              rw [pathAt_cons_succ, pathAt_cons_zero] at hsw
              refine Or.inl ⟨x.info.full_path ++ ['/'], ?_, hsw⟩
              rw [nextInner, hkind]
            | succ j2 =>
              rw [pathAt_cons_succ] at hsw
              rw [pathAt_cons_succ] at hsw
              rw [kindAt_cons_succ] at hkind
              exact Or.inr ⟨j2, by omega, hkind, hsw⟩
        · intro h hcase
          apply h
          rcases hcase with hm | ha
          · rcases hm with ⟨cp, hcp, hsw⟩
            obtain ⟨hkind, hcpeq⟩ := nextInner_some x cp hcp
            subst hcpeq
            refine Or.inr ⟨0, by omega, ?_, ?_⟩
            · rwa [kindAt_cons_zero]
            · rw [pathAt_cons_succ, pathAt_cons_zero]
              exact hsw
          · rcases ha with ⟨j, hj, hkind, hsw⟩
            refine Or.inr ⟨j + 1, by omega, ?_, ?_⟩
            · rwa [kindAt_cons_succ]
            · rw [pathAt_cons_succ, pathAt_cons_succ]
              exact hsw

theorem ancBefore_iff_hasCollapsedAnc (l : List FileTreeItem) (hs : sortedStrict l = true)
    (i : Nat) (hi : i < l.length) : AncBefore l i ↔ hasCollapsedAnc l i := by
  constructor
  · rintro ⟨j, hj, hkind, hsw⟩
    exact ⟨j, by omega, hkind, hsw⟩
  · rintro ⟨j, hjlen, hkind, hsw⟩
    exact ⟨j, sorted_anc_lt_index l hs i j hi hjlen hsw, hkind, hsw⟩

/-- C2 (amended): on a path-sorted sequence in which every directory's
descendants form a contiguous run (the amendment — sortedness alone does not
force this, see the counterexample), the whole-tree visibility pass performed
at the end of rebuild (`update_visibility` with no prefix, start index 0 and
`set_defaults = true`) makes each entry visible exactly when none of its
proper ancestor directory entries is collapsed (invariant I3). -/
theorem C2_update_visibility_i3 (t : StatusTree)
    (hsort : sortedStrict t.tree = true)
    (hcontig : ∀ m, m < t.tree.length → ∀ k, k < m → ∀ j, j < k →
      startsWithB (pathAt t.tree m) (pathAt t.tree j ++ ['/']) = true →
      startsWithB (pathAt t.tree k) (pathAt t.tree j ++ ['/']) = true)
    (i : Nat) (hi : i < t.tree.length) :
    visibleAt (t.update_visibility none 0 true).tree i = true ↔
      ¬ hasCollapsedAnc t.tree i := by
  have htree : (t.update_visibility none 0 true).tree = updateVisAux none true none t.tree := by
    rw [StatusTree.update_visibility]
    simp
  rw [htree]
  rw [visAux_correct t.tree none
    (fun j k m hjk hkm hm hsw => hcontig m hm k hkm j hjk hsw)
    (fun cp h => by cases h) i hi]
  constructor
  · intro h hanc
    exact h (Or.inr ((ancBefore_iff_hasCollapsedAnc t.tree hsort i hi).mpr hanc))
  · intro h hcase
    rcases hcase with hm | ha
    · rcases hm with ⟨cp, hcp, _⟩
      cases hcp
    · exact h ((ancBefore_iff_hasCollapsedAnc t.tree hsort i hi).mp ha)

/-- C2 counterexample: in the sorted sequence `a`(collapsed dir), `a!b`, `a/c`
the whole-tree visibility pass leaves `a/c` visible even though its proper
ancestor directory `a` is collapsed — the walk's skip marker is cleared at
`a!b`. Sortedness alone therefore does not give invariant I3. -/
theorem C2_counterexample :
    sortedStrict cexTreeC = true ∧
    kindAt cexTreeC 0 = .Path true ∧
    startsWithB (pathAt cexTreeC 2) (pathAt cexTreeC 0 ++ ['/']) = true ∧
    visibleAt ((StatusTree.mk cexTreeC none).update_visibility none 0 true).tree 2 = true := by
  decide

/-- C2 witness: the amended theorem applied to the five-entry tree with `a`
collapsed; entry 1 (`a/b`) ends up invisible after the whole-tree pass. -/
theorem C2_witness :
    visibleAt ((StatusTree.mk exTreeC none).update_visibility none 0 true).tree 1 = false := by
  have h := C2_update_visibility_i3 (StatusTree.mk exTreeC none) (by decide) (by decide)
    1 (by decide)
  have hanc : hasCollapsedAnc (StatusTree.mk exTreeC none).tree 1 :=
    ⟨0, by decide, by decide, by decide⟩
  cases hv : visibleAt ((StatusTree.mk exTreeC none).update_visibility none 0 true).tree 1 with
  | false => rfl
  | true => exact absurd hanc (h.mp hv)

/-- C6: starting from the sorted five-entry sequence `a, a/b, a/b/c, a/b2,
a/b2/d` (all directories expanded, everything visible), collapsing `a/b` at
index 1 and then `a` at index 0 hides indices 1–4 while index 0 stays visible;
a subsequent expand of `a` at index 0 restores indices 1, 3 and 4 but keeps
index 2 (`a/b/c`) hidden because `a/b` is still collapsed. -/
theorem C6_collapse_collapse_expand :
    visibleAt (((StatusTree.mk exTree (some 0)).collapse (pstr (r"a/b")) 1).collapse
      (pstr (r"a")) 0).tree 0 = true ∧
    visibleAt (((StatusTree.mk exTree (some 0)).collapse (pstr (r"a/b")) 1).collapse
      (pstr (r"a")) 0).tree 1 = false ∧
    visibleAt (((StatusTree.mk exTree (some 0)).collapse (pstr (r"a/b")) 1).collapse
      (pstr (r"a")) 0).tree 2 = false ∧
    visibleAt (((StatusTree.mk exTree (some 0)).collapse (pstr (r"a/b")) 1).collapse
      (pstr (r"a")) 0).tree 3 = false ∧
    visibleAt (((StatusTree.mk exTree (some 0)).collapse (pstr (r"a/b")) 1).collapse
      (pstr (r"a")) 0).tree 4 = false ∧
    visibleAt ((((StatusTree.mk exTree (some 0)).collapse (pstr (r"a/b")) 1).collapse
      (pstr (r"a")) 0).expand (pstr (r"a")) 0).tree 0 = true ∧
    visibleAt ((((StatusTree.mk exTree (some 0)).collapse (pstr (r"a/b")) 1).collapse
      (pstr (r"a")) 0).expand (pstr (r"a")) 0).tree 1 = true ∧
    visibleAt ((((StatusTree.mk exTree (some 0)).collapse (pstr (r"a/b")) 1).collapse
      (pstr (r"a")) 0).expand (pstr (r"a")) 0).tree 2 = false ∧
    visibleAt ((((StatusTree.mk exTree (some 0)).collapse (pstr (r"a/b")) 1).collapse
      (pstr (r"a")) 0).expand (pstr (r"a")) 0).tree 3 = true ∧
    visibleAt ((((StatusTree.mk exTree (some 0)).collapse (pstr (r"a/b")) 1).collapse
      (pstr (r"a")) 0).expand (pstr (r"a")) 0).tree 4 = true := by
  decide

/-! ### Up/Down movement -/

theorem updownLoop_spec (l : List FileTreeItem) (up : Bool) (current : Nat) :
    ∀ fuel ni, updownLoop l up current fuel ni = current ∨
      visibleAt l (updownLoop l up current fuel ni) = true := by
  intro fuel
  induction fuel with
  | zero => intro ni; left; rfl
  | succ f ih =>
    intro ni
    simp only [updownLoop]
    by_cases hv : isVisibleIndex l (min (if up then ni - 1 else ni + 1) (l.length - 1)) = true
    · rw [if_pos hv]
      right
      exact hv
    · rw [if_neg hv]
      by_cases hb : min (if up then ni - 1 else ni + 1) (l.length - 1) = 0 ∨
          min (if up then ni - 1 else ni + 1) (l.length - 1) = l.length - 1
      · rw [if_pos hb]
        left
        rfl
      · rw [if_neg hb]
        exact ih _


/-- C3: with a valid selection `i` on a non-empty tree, `move_selection` Up or
Down either returns `false` and leaves the selection at `i`, or returns `true`
and moves the selection to a different index whose entry is visible; the
returned boolean says exactly whether the selection index changed. -/
theorem C3_updown_lands_visible (t : StatusTree) (i : Nat) (d : MoveSelection)
    (hsel : t.selection = some i) (_hi : i < t.tree.length)
    (hd : d = MoveSelection.Up ∨ d = MoveSelection.Down) :
    ((t.move_selection d).2 = false ∧ (t.move_selection d).1.selection = some i) ∨
    ((t.move_selection d).2 = true ∧ ∃ j, (t.move_selection d).1.selection = some j ∧
      j ≠ i ∧ visibleAt t.tree j = true) := by
  rcases hd with rfl | rfl
  · rcases updownLoop_spec t.tree true i (t.tree.length + 1) i with hc | hv
    · left
      constructor
      · simp [StatusTree.move_selection, hsel, StatusTree.selection_updown, hc]
      · simp [StatusTree.move_selection, hsel, StatusTree.selection_updown, hc]
    · by_cases hni : updownLoop t.tree true i (t.tree.length + 1) i = i
      · left
        constructor
        · simp [StatusTree.move_selection, hsel, StatusTree.selection_updown, hni]
        · simp [StatusTree.move_selection, hsel, StatusTree.selection_updown, hni]
      · right
        constructor
        · simp [StatusTree.move_selection, hsel, StatusTree.selection_updown, hni]
        · exact ⟨updownLoop t.tree true i (t.tree.length + 1) i,
            by simp [StatusTree.move_selection, hsel, StatusTree.selection_updown], hni, hv⟩
  · rcases updownLoop_spec t.tree false i (t.tree.length + 1) i with hc | hv
    · left
      constructor
      · simp [StatusTree.move_selection, hsel, StatusTree.selection_updown, hc]
      · simp [StatusTree.move_selection, hsel, StatusTree.selection_updown, hc]
    · by_cases hni : updownLoop t.tree false i (t.tree.length + 1) i = i
      · left
        constructor
        · simp [StatusTree.move_selection, hsel, StatusTree.selection_updown, hni]
        · simp [StatusTree.move_selection, hsel, StatusTree.selection_updown, hni]
      · right
        constructor
        · simp [StatusTree.move_selection, hsel, StatusTree.selection_updown, hni]
        · exact ⟨updownLoop t.tree false i (t.tree.length + 1) i,
            by simp [StatusTree.move_selection, hsel, StatusTree.selection_updown], hni, hv⟩

/-- C3 witness: the theorem at the concrete five-entry tree with selection 0,
moving Down. -/
theorem C3_witness :
    ((((StatusTree.mk exTree (some 0)).move_selection MoveSelection.Down).2 = false ∧
      ((StatusTree.mk exTree (some 0)).move_selection MoveSelection.Down).1.selection =
        some 0) ∨
     (((StatusTree.mk exTree (some 0)).move_selection MoveSelection.Down).2 = true ∧
      ∃ j, ((StatusTree.mk exTree (some 0)).move_selection MoveSelection.Down).1.selection =
        some j ∧ j ≠ 0 ∧ visibleAt (StatusTree.mk exTree (some 0)).tree j = true)) :=
  C3_updown_lands_visible (StatusTree.mk exTree (some 0)) 0 MoveSelection.Down rfl
    (by decide) (Or.inr rfl)

/-- C10: Up and Down movement never change the entry sequence — paths, kinds,
collapse flags and visible flags all stay identical; only the selection field
may change. -/
theorem C10_updown_frame (t : StatusTree) (i : Nat) (d : MoveSelection)
    (hsel : t.selection = some i) (_hi : i < t.tree.length)
    (hd : d = MoveSelection.Up ∨ d = MoveSelection.Down) :
    (t.move_selection d).1.tree = t.tree := by
  rcases hd with rfl | rfl <;> simp [StatusTree.move_selection, hsel]

/-- C10 witness: the frame property at the concrete five-entry tree. -/
theorem C10_witness :
    ((StatusTree.mk exTree (some 0)).move_selection MoveSelection.Up).1.tree =
      (StatusTree.mk exTree (some 0)).tree :=
  C10_updown_frame (StatusTree.mk exTree (some 0)) 0 MoveSelection.Up rfl (by decide)
    (Or.inl rfl)

/-! ### Selection-validity machinery -/

theorem findParentAux_le (l : List FileTreeItem) (p : List Char) :
    ∀ n, findParentAux l p n ≤ n := by
  intro n
  induction n with
  | zero => exact Nat.le_refl 0
  | succ m ih =>
    simp only [findParentAux]
    split
    · omega
    · exact Nat.le_succ_of_le ih

theorem update_visibility_tree_length (t : StatusTree) (pre : Option (List Char))
    (s : Nat) (sd : Bool) : (t.update_visibility pre s sd).tree.length = t.tree.length := by
  simp [StatusTree.update_visibility, List.length_append, List.length_take,
    updateVisAux_length, List.length_drop]
  omega

theorem update_visibility_selection (t : StatusTree) (pre : Option (List Char))
    (s : Nat) (sd : Bool) : (t.update_visibility pre s sd).selection = t.selection := rfl

theorem expand_tree_length (t : StatusTree) (path : List Char) (idx : Nat) :
    (t.expand path idx).tree.length = t.tree.length := by
  simp [StatusTree.expand, update_visibility_tree_length, modifyAt_length]

theorem expand_selection (t : StatusTree) (path : List Char) (idx : Nat) :
    (t.expand path idx).selection = t.selection := rfl

theorem collapse_selection (t : StatusTree) (path : List Char) (idx : Nat) :
    (t.collapse path idx).selection = t.selection := rfl

theorem binSearchLoop_sound (l : List FileTreeItem) (target : List Char) :
    ∀ fuel left right, right ≤ l.length → ∀ m,
      binSearchLoop l target fuel left right = some m →
      m < l.length ∧ pathAt l m = target := by
  intro fuel
  induction fuel with
  | zero =>
    intro left right hr m h
    simp [binSearchLoop] at h
  | succ f ih =>
    intro left right hr m h
    simp only [binSearchLoop] at h
    by_cases hlr : left < right
    · rw [if_pos hlr] at h
      by_cases h1 : pathLtB (pathAt l (left + (right - left) / 2)) target = true
      · rw [if_pos h1] at h
        exact ih (left + (right - left) / 2 + 1) right hr m h
      · rw [if_neg h1] at h
        by_cases h2 : pathLtB target (pathAt l (left + (right - left) / 2)) = true
        · rw [if_pos h2] at h
          exact ih left (left + (right - left) / 2) (by omega) m h
        · rw [if_neg h2] at h
          obtain rfl : left + (right - left) / 2 = m := Option.some.inj h
          rw [Bool.not_eq_true] at h1 h2
          exact ⟨by omega, pathLtB_total_eq _ _ h1 h2⟩
    · rw [if_neg hlr] at h
      cases h

theorem binSearchLoop_complete (l : List FileTreeItem) (target : List Char)
    (hsort : sortedStrict l = true) :
    ∀ fuel left right, right ≤ l.length → right - left ≤ fuel →
      ∀ j, left ≤ j → j < right → pathAt l j = target →
      ∃ m, binSearchLoop l target fuel left right = some m := by
  intro fuel
  induction fuel with
  | zero =>
    intro left right hr hf j hj1 hj2 hj3
    omega
  | succ f ih =>
    intro left right hr hf j hj1 hj2 hj3
    have hlr : left < right := by omega
    simp only [binSearchLoop]
    rw [if_pos hlr]
    by_cases h1 : pathLtB (pathAt l (left + (right - left) / 2)) target = true
    · rw [if_pos h1]
      have hmid : left + (right - left) / 2 < j := by
        by_contra hc
        push_neg at hc
        rcases Nat.eq_or_lt_of_le hc with heq | hlt2
        · rw [← heq, hj3, pathLtB_irrefl] at h1
          cases h1
        · have hs := sorted_lt l hsort j (left + (right - left) / 2) hlt2 (by omega)
          rw [hj3] at hs
          exact pathLtB_asymm _ _ h1 hs
      exact ih (left + (right - left) / 2 + 1) right hr (by omega) j (by omega) hj2 hj3
    · rw [if_neg h1]
      by_cases h2 : pathLtB target (pathAt l (left + (right - left) / 2)) = true
      · rw [if_pos h2]
        have hmid : j < left + (right - left) / 2 := by
          by_contra hc
          push_neg at hc
          rcases Nat.eq_or_lt_of_le hc with heq | hlt2
          · rw [heq, hj3, pathLtB_irrefl] at h2
            cases h2
          · have hs := sorted_lt l hsort (left + (right - left) / 2) j hlt2 (by omega)
            rw [hj3] at hs
            exact pathLtB_asymm _ _ hs h2
        exact ih left (left + (right - left) / 2) (by omega) (by omega) j hj1 hmid hj3
      · rw [if_neg h2]
        exact ⟨left + (right - left) / 2, rfl⟩

theorem binarySearchPath_sound (l : List FileTreeItem) (target : List Char) (m : Nat)
    (h : binarySearchPath l target = some m) : m < l.length ∧ pathAt l m = target :=
  binSearchLoop_sound l target (l.length + 1) 0 l.length (Nat.le_refl _) m h

theorem binarySearchPath_complete (l : List FileTreeItem) (target : List Char)
    (hsort : sortedStrict l = true) (j : Nat) (hj : j < l.length)
    (hjt : pathAt l j = target) : ∃ m, binarySearchPath l target = some m :=
  binSearchLoop_complete l target hsort (l.length + 1) 0 l.length (Nat.le_refl _)
    (by omega) j (by omega) hj hjt

theorem validSelB_iff (t : StatusTree) :
    validSelB t = true ↔
      ((t.selection = none ↔ t.tree = []) ∧
        ∀ i, t.selection = some i → i < t.tree.length) := by
  obtain ⟨tree, sel⟩ := t
  cases sel with
  | none =>
    constructor
    · intro h
      simp only [validSelB, Bool.and_eq_true, beq_iff_eq] at h
      constructor
      · simpa [List.isEmpty_iff] using h.1.symm
      · intro i hi
        cases hi
    · intro h
      simp only [validSelB, Bool.and_eq_true, beq_iff_eq]
      refine ⟨?_, trivial⟩
      simp only [Option.isNone_none]
      have h1 := h.1
      rw [eq_comm, List.isEmpty_iff]
      exact h1.mp rfl
  | some i =>
    constructor
    · intro h
      simp only [validSelB, Bool.and_eq_true, beq_iff_eq, decide_eq_true_eq] at h
      constructor
      · constructor
        · intro hc
          cases hc
        · intro hc
          subst hc
          simp at h
      · intro j hj
        obtain rfl : i = j := Option.some.inj hj
        exact h.2
    · intro h
      simp only [validSelB, Bool.and_eq_true, beq_iff_eq, decide_eq_true_eq]
      have hi : i < tree.length := h.2 i rfl
      constructor
      · have hne : tree ≠ [] := by
          intro hc
          subst hc
          simp at hi
        simp [List.isEmpty_iff, hne]
      · exact hi

theorem updateWith_tree_length (t : StatusTree) (newTree : List FileTreeItem) :
    (t.updateWith newTree).tree.length = newTree.length := by
  simp [StatusTree.updateWith, update_visibility_tree_length]

theorem updateWith_selection_of_none (t : StatusTree) (newTree : List FileTreeItem)
    (hsel : t.selection = none) :
    (t.updateWith newTree).selection = if newTree.isEmpty then none else some 0 := by
  simp [StatusTree.updateWith, StatusTree.selected_item, hsel, update_visibility_selection]

theorem updateWith_selection_of_some (t : StatusTree) (k : Nat)
    (newTree : List FileTreeItem) (hsel : t.selection = some k) :
    (t.updateWith newTree).selection =
      match (StatusTree.mk newTree none).find_last_selection (pathAt t.tree k) k with
      | some i => some i
      | none => if newTree.isEmpty then none else some 0 := by
  simp [StatusTree.updateWith, StatusTree.selected_item, hsel, update_visibility_selection,
    pathAt]

theorem find_last_selection_of_ne (newTree : List FileTreeItem) (ls : List Char) (k : Nat)
    (hne : newTree.isEmpty = false) :
    (StatusTree.mk newTree none).find_last_selection ls k =
      match binarySearchPath newTree ls with
      | some i => some i
      | none => some (min k (newTree.length - 1)) := by
  simp [StatusTree.find_last_selection, StatusTree.is_empty, hne]

theorem find_last_selection_of_empty (newTree : List FileTreeItem) (ls : List Char) (k : Nat)
    (hne : newTree.isEmpty = true) :
    (StatusTree.mk newTree none).find_last_selection ls k = none := by
  simp [StatusTree.find_last_selection, StatusTree.is_empty, hne]

/-- C5: the selection invariant — `selection` is `none` exactly when the entry
list is empty, and a present selection is a valid index — holds after every
rebuild (for any builder output) and is preserved by every `move_selection`
call. -/
theorem C5_selection_invariant :
    (∀ (t : StatusTree) (newTree : List FileTreeItem),
      validSelB (t.updateWith newTree) = true) ∧
    (∀ (u : StatusTree) (d : MoveSelection), validSelB u = true →
      validSelB ((u.move_selection d).1) = true) := by
  constructor
  · intro t newTree
    apply (validSelB_iff _).mpr
    have hlen := updateWith_tree_length t newTree
    have htree_nil : (t.updateWith newTree).tree = [] ↔ newTree = [] := by
      constructor
      · intro h
        rw [h] at hlen
        exact List.length_eq_zero.mp hlen.symm
      · intro h
        subst h
        exact List.length_eq_zero.mp hlen
    rcases hts : t.selection with _ | k
    · have hsel := updateWith_selection_of_none t newTree hts
      by_cases hne : newTree.isEmpty = true
      · have hnil : newTree = [] := List.isEmpty_iff.mp hne
        constructor
        · rw [hsel, if_pos hne]
          constructor
          · intro _
            exact htree_nil.mpr hnil
          · intro _
            rfl
        · intro i hi
          rw [hsel, if_pos hne] at hi
          cases hi
      · have hne2 : newTree ≠ [] := by
          intro h
          subst h
          simp at hne
        constructor
        · rw [hsel, if_neg hne]
          simp [htree_nil, hne2]
        · intro i hi
          rw [hsel, if_neg hne] at hi
          obtain rfl : (0 : Nat) = i := Option.some.inj hi
          rw [hlen]
          have := List.length_pos.mpr hne2
          omega
    · have hsel := updateWith_selection_of_some t k newTree hts
      by_cases hne : newTree.isEmpty = true
      · have hnil : newTree = [] := List.isEmpty_iff.mp hne
        rw [find_last_selection_of_empty newTree _ k hne] at hsel
        simp only [hne, if_true] at hsel
        constructor
        · rw [hsel]
          constructor
          · intro _
            exact htree_nil.mpr hnil
          · intro _
            rfl
        · intro i hi
          rw [hsel] at hi
          cases hi
      · have hne2 : newTree ≠ [] := by
          intro h
          subst h
          simp at hne
        have hpos : 0 < newTree.length := List.length_pos.mpr hne2
        rw [find_last_selection_of_ne newTree _ k
          (by rw [Bool.not_eq_true] at hne; exact hne)] at hsel
        rcases hbs : binarySearchPath newTree (pathAt t.tree k) with _ | m
        · rw [hbs] at hsel
          constructor
          · rw [hsel]
            simp [htree_nil, hne2]
          · intro i hi
            rw [hsel] at hi
            obtain rfl : min k (newTree.length - 1) = i := Option.some.inj hi
            rw [hlen]
            omega
        · rw [hbs] at hsel
          have hm := binarySearchPath_sound newTree _ m hbs
          constructor
          · rw [hsel]
            simp [htree_nil, hne2]
          · intro i hi
            rw [hsel] at hi
            obtain rfl : m = i := Option.some.inj hi
            rw [hlen]
            exact hm.1
  · intro u d hv
    rw [validSelB_iff] at hv
    obtain ⟨hv1, hv2⟩ := hv
    apply (validSelB_iff _).mpr
    rcases hus : u.selection with _ | i
    · have hmv : u.move_selection d = (u, false) := by
        simp [StatusTree.move_selection, hus]
      rw [hmv]
      exact ⟨hv1, hv2⟩
    · have hi : i < u.tree.length := hv2 i hus
      have hne : u.tree ≠ [] := by
        intro h
        have := hv1.mpr h
        rw [hus] at this
        cases this
      cases d with
      | Up =>
        have h1 : (u.move_selection MoveSelection.Up).1.tree = u.tree := by
          simp [StatusTree.move_selection, hus]
        have h2 : (u.move_selection MoveSelection.Up).1.selection =
            some (updownLoop u.tree true i (u.tree.length + 1) i) := by
          simp [StatusTree.move_selection, hus, StatusTree.selection_updown]
        constructor
        · rw [h1, h2]
          simp [hne]
        · intro j hj
          rw [h2] at hj
          obtain rfl : updownLoop u.tree true i (u.tree.length + 1) i = j :=
            Option.some.inj hj
          rw [h1]
          rcases updownLoop_spec u.tree true i (u.tree.length + 1) i with hc | hvv
          · rw [hc]; exact hi
          · exact visibleAt_true_lt u.tree _ hvv
      | Down =>
        have h1 : (u.move_selection MoveSelection.Down).1.tree = u.tree := by
          simp [StatusTree.move_selection, hus]
        have h2 : (u.move_selection MoveSelection.Down).1.selection =
            some (updownLoop u.tree false i (u.tree.length + 1) i) := by
          simp [StatusTree.move_selection, hus, StatusTree.selection_updown]
        constructor
        · rw [h1, h2]
          simp [hne]
        · intro j hj
          rw [h2] at hj
          obtain rfl : updownLoop u.tree false i (u.tree.length + 1) i = j :=
            Option.some.inj hj
          rw [h1]
          rcases updownLoop_spec u.tree false i (u.tree.length + 1) i with hc | hvv
          · rw [hc]; exact hi
          · exact visibleAt_true_lt u.tree _ hvv
      | Left =>
        rcases hk : kindAt u.tree i with _ | b
        · have h1 : (u.move_selection MoveSelection.Left).1.tree = u.tree := by
            simp [StatusTree.move_selection, hus, StatusTree.selection_left, hk]
          have h2 : (u.move_selection MoveSelection.Left).1.selection =
              some (findParentIndex u.tree (pathAt u.tree i) i) := by
            simp [StatusTree.move_selection, hus, StatusTree.selection_left, hk]
          constructor
          · rw [h1, h2]
            simp [hne]
          · intro j hj
            rw [h2] at hj
            obtain rfl : findParentIndex u.tree (pathAt u.tree i) i = j :=
              Option.some.inj hj
            rw [h1]
            have := findParentAux_le u.tree (pathAt u.tree i) i
            rw [findParentIndex]
            omega
        · cases b with
          | true =>
            have h1 : (u.move_selection MoveSelection.Left).1.tree = u.tree := by
              simp [StatusTree.move_selection, hus, StatusTree.selection_left, hk]
            have h2 : (u.move_selection MoveSelection.Left).1.selection =
                some (findParentIndex u.tree (pathAt u.tree i) i) := by
              simp [StatusTree.move_selection, hus, StatusTree.selection_left, hk]
            constructor
            · rw [h1, h2]
              simp [hne]
            · intro j hj
              rw [h2] at hj
              obtain rfl : findParentIndex u.tree (pathAt u.tree i) i = j :=
                Option.some.inj hj
              rw [h1]
              have := findParentAux_le u.tree (pathAt u.tree i) i
              rw [findParentIndex]
              omega
          | false =>
            have h1 : (u.move_selection MoveSelection.Left).1.tree =
                (u.collapse (pathAt u.tree i) i).tree := by
              simp [StatusTree.move_selection, hus, StatusTree.selection_left, hk]
            have h2 : (u.move_selection MoveSelection.Left).1.selection = some i := by
              simp [StatusTree.move_selection, hus, StatusTree.selection_left, hk]
            have hlen : (u.collapse (pathAt u.tree i) i).tree.length = u.tree.length :=
              collapse_tree_length u (pathAt u.tree i) i
            constructor
            · rw [h1, h2]
              have : (u.collapse (pathAt u.tree i) i).tree ≠ [] := by
                intro h
                rw [h] at hlen
                exact hne (List.length_eq_zero.mp hlen.symm)
              simp [this]
            · intro j hj
              rw [h2] at hj
              obtain rfl : i = j := Option.some.inj hj
              rw [h1, hlen]
              exact hi
      | Right =>
        rcases hk : kindAt u.tree i with _ | b
        · have h1 : (u.move_selection MoveSelection.Right).1.tree = u.tree := by
            simp [StatusTree.move_selection, hus, StatusTree.selection_right, hk]
          have h2 : (u.move_selection MoveSelection.Right).1.selection = some i := by
            simp [StatusTree.move_selection, hus, StatusTree.selection_right, hk]
          constructor
          · rw [h1, h2]
            simp [hne]
          · intro j hj
            rw [h2] at hj
            obtain rfl : i = j := Option.some.inj hj
            rw [h1]
            exact hi
        · cases b with
          | false =>
            have h1 : (u.move_selection MoveSelection.Right).1.tree = u.tree := by
              simp [StatusTree.move_selection, hus, StatusTree.selection_right, hk]
            have h2 : (u.move_selection MoveSelection.Right).1.selection = some i := by
              simp [StatusTree.move_selection, hus, StatusTree.selection_right, hk]
            constructor
            · rw [h1, h2]
              simp [hne]
            · intro j hj
              rw [h2] at hj
              obtain rfl : i = j := Option.some.inj hj
              rw [h1]
              exact hi
          | true =>
            have h1 : (u.move_selection MoveSelection.Right).1.tree =
                (u.expand (pathAt u.tree i) i).tree := by
              simp [StatusTree.move_selection, hus, StatusTree.selection_right, hk]
            have h2 : (u.move_selection MoveSelection.Right).1.selection = some i := by
              simp [StatusTree.move_selection, hus, StatusTree.selection_right, hk]
            have hlen : (u.expand (pathAt u.tree i) i).tree.length = u.tree.length :=
              expand_tree_length u (pathAt u.tree i) i
            constructor
            · rw [h1, h2]
              have : (u.expand (pathAt u.tree i) i).tree ≠ [] := by
                intro h
                rw [h] at hlen
                exact hne (List.length_eq_zero.mp hlen.symm)
              simp [this]
            · intro j hj
              rw [h2] at hj
              obtain rfl : i = j := Option.some.inj hj
              rw [h1, hlen]
              exact hi

/-- C5 witness: a rebuild of the empty tree from the five-entry list, and a
Down move on that tree, both satisfy the invariant. -/
theorem C5_witness :
    validSelB ((StatusTree.mk [] none).updateWith exTree) = true ∧
    validSelB (((StatusTree.mk exTree (some 0)).move_selection MoveSelection.Down).1) = true :=
  ⟨C5_selection_invariant.1 (StatusTree.mk [] none) exTree,
   C5_selection_invariant.2 (StatusTree.mk exTree (some 0)) MoveSelection.Down (by decide)⟩

/-- C4: on a rebuild carrying a previous selection of path `p` at numeric
index `k`, with a non-empty sorted new sequence: if some new entry's path is
exactly `p` the new selection points at such an entry, otherwise the new
selection is `min(k, len - 1)`. -/
theorem C4_rebuild_selection (t : StatusTree) (k : Nat) (newTree : List FileTreeItem)
    (hsel : t.selection = some k) (_hk : k < t.tree.length)
    (hsort : sortedStrict newTree = true) (hne : newTree ≠ []) :
    ((∃ j, j < newTree.length ∧ pathAt newTree j = pathAt t.tree k) →
      ∃ m, (t.updateWith newTree).selection = some m ∧ m < newTree.length ∧
        pathAt newTree m = pathAt t.tree k) ∧
    ((∀ j, j < newTree.length → pathAt newTree j ≠ pathAt t.tree k) →
      (t.updateWith newTree).selection = some (min k (newTree.length - 1))) := by
  have hneB : newTree.isEmpty = false := by
    cases newTree with
    | nil => exact absurd rfl hne
    | cons a as => rfl
  have hupd := updateWith_selection_of_some t k newTree hsel
  rw [find_last_selection_of_ne newTree _ k hneB] at hupd
  constructor
  · rintro ⟨j, hj, hjp⟩
    obtain ⟨m, hm⟩ := binarySearchPath_complete newTree (pathAt t.tree k) hsort j hj hjp
    rw [hm] at hupd
    have hs := binarySearchPath_sound newTree _ m hm
    exact ⟨m, hupd, hs.1, hs.2⟩
  · intro hnone
    rcases hbs : binarySearchPath newTree (pathAt t.tree k) with _ | m
    · rw [hbs] at hupd
      exact hupd
    · have hs := binarySearchPath_sound newTree _ m hbs
      exact absurd hs.2 (hnone m hs.1)

/-- C4 witness: rebuilding from the five-entry tree (selection on `a/b`) to
the two-entry sequence `a, a/b` reselects the entry whose path is `a/b`. -/
theorem C4_witness :
    ∃ m, ((StatusTree.mk exTree (some 1)).updateWith abTree).selection = some m ∧
      m < abTree.length ∧ pathAt abTree m = pathAt (StatusTree.mk exTree (some 1)).tree 1 :=
  (C4_rebuild_selection (StatusTree.mk exTree (some 1)) 1 abTree rfl (by decide)
    (by decide) (by decide)).1 ⟨1, by decide, by decide⟩

/-- C7: with a selection present, `move_selection` returns `true` exactly when
the selection index changed or a structural mutation happened (collapse via
Left on an expanded directory, expand via Right on a collapsed directory),
including mutations that leave the index unchanged. -/
theorem C7_return_contract (t : StatusTree) (i : Nat)
    (hsel : t.selection = some i) (_hi : i < t.tree.length) (d : MoveSelection) :
    ((t.move_selection d).2 = true ↔
      ((t.move_selection d).1.selection ≠ t.selection ∨ structMut t i d)) := by
  cases d with
  | Up =>
    have h2 : (t.move_selection MoveSelection.Up).1.selection =
        some (updownLoop t.tree true i (t.tree.length + 1) i) := by
      simp [StatusTree.move_selection, hsel, StatusTree.selection_updown]
    have hb : (t.move_selection MoveSelection.Up).2 =
        (updownLoop t.tree true i (t.tree.length + 1) i != i) := by
      simp [StatusTree.move_selection, hsel, StatusTree.selection_updown]
    have hsm : ¬ structMut t i MoveSelection.Up := by
      rintro (⟨h, _⟩ | ⟨h, _⟩) <;> cases h
    rw [h2, hb, hsel, bne_iff_ne]
    constructor
    · intro h
      left
      intro hc
      exact h (Option.some.inj hc)
    · rintro (h | h)
      · intro hc
        exact h (by rw [hc])
      · exact absurd h hsm
  | Down =>
    have h2 : (t.move_selection MoveSelection.Down).1.selection =
        some (updownLoop t.tree false i (t.tree.length + 1) i) := by
      simp [StatusTree.move_selection, hsel, StatusTree.selection_updown]
    have hb : (t.move_selection MoveSelection.Down).2 =
        (updownLoop t.tree false i (t.tree.length + 1) i != i) := by
      simp [StatusTree.move_selection, hsel, StatusTree.selection_updown]
    have hsm : ¬ structMut t i MoveSelection.Down := by
      rintro (⟨h, _⟩ | ⟨h, _⟩) <;> cases h
    rw [h2, hb, hsel, bne_iff_ne]
    constructor
    · intro h
      left
      intro hc
      exact h (Option.some.inj hc)
    · rintro (h | h)
      · intro hc
        exact h (by rw [hc])
      · exact absurd h hsm
  | Left =>
    rcases hk : kindAt t.tree i with _ | b
    · have h2 : (t.move_selection MoveSelection.Left).1.selection =
          some (findParentIndex t.tree (pathAt t.tree i) i) := by
        simp [StatusTree.move_selection, hsel, StatusTree.selection_left, hk]
      have hb : (t.move_selection MoveSelection.Left).2 =
          (findParentIndex t.tree (pathAt t.tree i) i != i) := by
        simp [StatusTree.move_selection, hsel, StatusTree.selection_left, hk]
      have hsm : ¬ structMut t i MoveSelection.Left := by
        rintro (⟨_, h⟩ | ⟨h, _⟩)
        · rw [hk] at h
          cases h
        · cases h
      rw [h2, hb, hsel, bne_iff_ne]
      constructor
      · intro h
        left
        intro hc
        exact h (Option.some.inj hc)
      · rintro (h | h)
        · intro hc
          exact h (by rw [hc])
        · exact absurd h hsm
    · cases b with
      | true =>
        have h2 : (t.move_selection MoveSelection.Left).1.selection =
            some (findParentIndex t.tree (pathAt t.tree i) i) := by
          simp [StatusTree.move_selection, hsel, StatusTree.selection_left, hk]
        have hb : (t.move_selection MoveSelection.Left).2 =
            (findParentIndex t.tree (pathAt t.tree i) i != i) := by
          simp [StatusTree.move_selection, hsel, StatusTree.selection_left, hk]
        have hsm : ¬ structMut t i MoveSelection.Left := by
          rintro (⟨_, h⟩ | ⟨h, _⟩)
          · rw [hk] at h
            simp at h
          · cases h
        rw [h2, hb, hsel, bne_iff_ne]
        constructor
        · intro h
          left
          intro hc
          exact h (Option.some.inj hc)
        · rintro (h | h)
          · intro hc
            exact h (by rw [hc])
          · exact absurd h hsm
      | false =>
        have hb : (t.move_selection MoveSelection.Left).2 = true := by
          simp [StatusTree.move_selection, hsel, StatusTree.selection_left, hk]
        rw [hb]
        constructor
        · intro _
          exact Or.inr (Or.inl ⟨rfl, hk⟩)
        · intro _
          rfl
  | Right =>
    rcases hk : kindAt t.tree i with _ | b
    · have h2 : (t.move_selection MoveSelection.Right).1.selection = some i := by
        simp [StatusTree.move_selection, hsel, StatusTree.selection_right, hk]
      have hb : (t.move_selection MoveSelection.Right).2 = false := by
        simp [StatusTree.move_selection, hsel, StatusTree.selection_right, hk]
      have hsm : ¬ structMut t i MoveSelection.Right := by
        rintro (⟨h, _⟩ | ⟨_, h⟩)
        · cases h
        · rw [hk] at h
          cases h
      rw [h2, hb, hsel]
      constructor
      · intro h
        cases h
      · rintro (h | h)
        · exact absurd rfl h
        · exact absurd h hsm
    · cases b with
      | false =>
        have h2 : (t.move_selection MoveSelection.Right).1.selection = some i := by
          simp [StatusTree.move_selection, hsel, StatusTree.selection_right, hk]
        have hb : (t.move_selection MoveSelection.Right).2 = false := by
          simp [StatusTree.move_selection, hsel, StatusTree.selection_right, hk]
        have hsm : ¬ structMut t i MoveSelection.Right := by
          rintro (⟨h, _⟩ | ⟨_, h⟩)
          · cases h
          · rw [hk] at h
            simp at h
        rw [h2, hb, hsel]
        constructor
        · intro h
          cases h
        · rintro (h | h)
          · exact absurd rfl h
          · exact absurd h hsm
      | true =>
        have hb : (t.move_selection MoveSelection.Right).2 = true := by
          simp [StatusTree.move_selection, hsel, StatusTree.selection_right, hk]
        rw [hb]
        constructor
        · intro _
          exact Or.inr (Or.inr ⟨rfl, hk⟩)
        · intro _
          rfl

/-- C7 witness: the contract at the five-entry tree with the expanded
directory `a` selected, moving Left (a collapse mutation with unchanged
index). -/
theorem C7_witness :
    (((StatusTree.mk exTree (some 0)).move_selection MoveSelection.Left).2 = true ↔
      (((StatusTree.mk exTree (some 0)).move_selection MoveSelection.Left).1.selection ≠
        (StatusTree.mk exTree (some 0)).selection ∨
       structMut (StatusTree.mk exTree (some 0)) 0 MoveSelection.Left)) :=
  C7_return_contract (StatusTree.mk exTree (some 0)) 0 rfl (by decide) MoveSelection.Left

/-- C8: with selection `i`, Left on a file or collapsed directory is a pure
cursor move to the builder's ancestor lookup result, mutating no entry; Left
on an expanded directory collapses it in place and keeps the selection at
`i`. -/
theorem C8_left_semantics (t : StatusTree) (i : Nat)
    (hsel : t.selection = some i) (_hi : i < t.tree.length) :
    ((kindAt t.tree i = .File ∨ kindAt t.tree i = .Path true) →
      (t.move_selection MoveSelection.Left).1.tree = t.tree ∧
      (t.move_selection MoveSelection.Left).1.selection =
        some (findParentIndex t.tree (pathAt t.tree i) i)) ∧
    (kindAt t.tree i = .Path false →
      (t.move_selection MoveSelection.Left).1.selection = some i ∧
      (t.move_selection MoveSelection.Left).1.tree =
        (t.collapse (pathAt t.tree i) i).tree) := by
  constructor
  · rintro (hk | hk)
    · constructor <;> simp [StatusTree.move_selection, hsel, StatusTree.selection_left, hk]
    · constructor <;> simp [StatusTree.move_selection, hsel, StatusTree.selection_left, hk]
  · intro hk
    constructor <;> simp [StatusTree.move_selection, hsel, StatusTree.selection_left, hk]

/-- C8 witness: Left on the file `a/b` (index 1) of the two-entry tree moves
the cursor to the ancestor lookup result and leaves the entries untouched. -/
theorem C8_witness :
    ((StatusTree.mk abTree (some 1)).move_selection MoveSelection.Left).1.tree = abTree ∧
    ((StatusTree.mk abTree (some 1)).move_selection MoveSelection.Left).1.selection =
      some (findParentIndex abTree (pathAt abTree 1) 1) :=
  (C8_left_semantics (StatusTree.mk abTree (some 1)) 1 rfl (by decide)).1
    (Or.inl (by decide))

/-- C9: on an empty tree (where the selection is absent), `selected_item`
yields `none` and `move_selection` returns `false` for every direction,
changing nothing. -/
theorem C9_empty_tree_noop (t : StatusTree) (d : MoveSelection)
    (_htree : t.tree = []) (hsel : t.selection = none) :
    t.selected_item = none ∧ t.move_selection d = (t, false) := by
  constructor
  · rw [StatusTree.selected_item, hsel]
    rfl
  · simp [StatusTree.move_selection, hsel]

/-- C9 witness: the default (empty) state. -/
theorem C9_witness :
    (StatusTree.mk [] none).selected_item = none ∧
    (StatusTree.mk [] none).move_selection MoveSelection.Up = (StatusTree.mk [] none, false) :=
  C9_empty_tree_noop (StatusTree.mk [] none) MoveSelection.Up rfl rfl
